/-
  Verification of the pvr curve / deep-image / ray-clipping core.

  Shallow embedding of:
    - Curve<T>::addSample, Curve<T>::interpolate   (src/libpvr/export/Curve.h)
    - makeFixedSample, DeepImage::lerp, DeepImage::pixelFunction
                                                    (src/libpvr/src/DeepImage.cpp)
    - FrustumMappingIntersection::intersect         (declared in
      src/libpvr/export/Volumes/VoxelVolume.h; implementation modelled from the
      specification, see the doc comments below)

  Floating-point values are modelled as exact rationals.
-/

import Mathlib

set_option linter.unusedVariables false

-- Definitions -----------------------------------------------------------------

/-- Imath::C3f (Color), components x, y, z; exact-rational model of float. -/
structure Color where
  x : ℚ
  y : ℚ
  z : ℚ
deriving DecidableEq, Repr

/-- Imath::lerp on scalars: a + (b - a) * t. -/
def lerpQ (a b t : ℚ) : ℚ := a + (b - a) * t

/-- Imath::lerp on colors: componentwise a + (b - a) * t. -/
def lerpC (a b : Color) (t : ℚ) : Color :=
  ⟨lerpQ a.x b.x t, lerpQ a.y b.y t, lerpQ a.z b.z t⟩

/-- Imath::lerpfactor(m, a, b) = (m - a) / (b - a). -/
def lerpfactor (m a b : ℚ) : ℚ := (m - a) / (b - a)

/-- Curve<T>::SampleVec: an ordered sequence of (position, value) samples. -/
abbrev SampleVec (T : Type) := List (ℚ × T)

/-- The type-indexed behavior of Curve<T> supplied by its template
specializations: `defaultReturnValue` (returned when the curve is empty) and
`lerp` (the blend used between bracketing samples). -/
structure CurveOps (T : Type) where
  defaultReturnValue : T
  lerp : T → T → ℚ → T

/-- Curve<T> for scalar T: defaultReturnValue is T(0); lerp is Imath::lerp. -/
def scalarOps : CurveOps ℚ := ⟨0, lerpQ⟩

/-- Curve<Color>: defaultReturnValue is Color(0) = (0,0,0); lerp is the
componentwise Imath::lerp. -/
def colorOps : CurveOps Color := ⟨⟨0, 0, 0⟩, lerpC⟩

/-- Imath::Quatd, components (r, x, y, z). -/
structure Quat where
  r : ℚ
  x : ℚ
  y : ℚ
  z : ℚ
deriving DecidableEq, Repr

/-- The Curve<Quat> template specializations: defaultReturnValue is Quat(),
the identity orientation (r = 1, v = 0); the lerp specialization calls
Imath::slerp, whose trigonometric internals are outside the provided sources,
so the spherical blend is kept as the parameter `slerp`. -/
def quatOps (slerp : Quat → Quat → ℚ → Quat) : CurveOps Quat :=
  ⟨⟨1, 0, 0, 0⟩, slerp⟩

/-- Curve<T>::addSample: std::find_if locates the first sample whose position
is strictly greater than t (CheckTGreaterThan); the new sample is inserted
before it, or appended when no such sample exists. -/
def addSample {T : Type} : SampleVec T → ℚ → T → SampleVec T
  | [], t, value => [(t, value)]
  | s :: rest, t, value =>
    if s.1 > t then (t, value) :: s :: rest
    else s :: addSample rest t value

/-- The scan inside Curve<T>::interpolate once the iterator has passed at
least one sample: `lower` is the last sample not greater than t seen so far.
Reaching the end returns the last sample's value (m_samples.back()); finding
the first sample greater than t blends it with the sample before it. -/
def interpolateFrom {T : Type} (ops : CurveOps T) (lower : ℚ × T) :
    SampleVec T → ℚ → T
  | [], _ => lower.2
  | s :: rest, t =>
    if s.1 > t then ops.lerp lower.2 s.2 (lerpfactor t lower.1 s.1)
    else interpolateFrom ops s rest t

/-- Curve<T>::interpolate: empty curve returns defaultReturnValue; if the
first sample is already greater than t the front value is returned
(find_if returned begin()); otherwise the scan continues. -/
def interpolate {T : Type} (ops : CurveOps T) : SampleVec T → ℚ → T
  | [], _ => ops.defaultReturnValue
  | s :: rest, t =>
    if s.1 > t then s.2
    else interpolateFrom ops s rest t

/-- The ordering invariant of Curve<T>: samples sorted non-decreasing by
position. -/
def SortedByPos {T : Type} (samples : SampleVec T) : Prop :=
  samples.Pairwise (fun a b => a.1 ≤ b.1)

instance {T : Type} (samples : SampleVec T) : Decidable (SortedByPos samples) := by
  unfold SortedByPos
  infer_instance

/-- Color(0.0). -/
def colorZero : Color := ⟨0, 0, 0⟩

/-- The channel mean of a color (the `avg` helper; spec §6 `mean`). Modelled
from the spec: its body is not among the provided sources. -/
def avg (c : Color) : ℚ := (c.x + c.y + c.z) / 3

/-- Modelled from the spec (§6): fit01(fraction, lowValue, highValue): plain
linear interpolation of the fraction between the two values; its body is not
among the provided sources. -/
def fit01 (t a b : ℚ) : ℚ := a + t * (b - a)

/-- fit01 applied per channel to colors. -/
def fit01C (t : ℚ) (a b : Color) : Color :=
  ⟨fit01 t a.x b.x, fit01 t a.y b.y, fit01 t a.z b.z⟩

/-- Modelled from the spec (§4.2): the ColorCurve(numSamples, value)
constructor used by makeFixedSample is not among the provided sources; it
emits numSamples samples, all holding `value`, at positions
i/(numSamples − 1). -/
def fixedValueCurve (numSamples : ℕ) (value : Color) : SampleVec Color :=
  (List.range numSamples).map
    (fun (i : ℕ) => ((i : ℚ) / ((numSamples : ℚ) - 1), value))

/-- The monotonicity scan of makeFixedSample over samples[1..]: a violation is
a channel strictly exceeding sign times the corresponding channel of
`lastVal`. In the source the loop body assigns `last = value`, never
`lastVal`, so `lastVal` stays samples[0].second for the whole scan and every
sample is compared against the first sample. -/
def monotonicViolation (sign : ℚ) (lastVal : Color) : List (ℚ × Color) → Bool
  | [] => false
  | s :: rest =>
    if s.2.x > sign * lastVal.x ∨ s.2.y > sign * lastVal.y
        ∨ s.2.z > sign * lastVal.z
    then true
    else monotonicViolation sign lastVal rest

/-- The scan described by the spec and by C4: every channel of each sample is
checked against the corresponding channel of the immediately preceding
sample, i.e. `lastVal` is updated to the previous sample each iteration. -/
def predecessorViolation (sign : ℚ) (lastVal : Color) : List (ℚ × Color) → Bool
  | [] => false
  | s :: rest =>
    if s.2.x > sign * lastVal.x ∨ s.2.y > sign * lastVal.y
        ∨ s.2.z > sign * lastVal.z
    then true
    else predecessorViolation sign s.2 rest

/-- The body of the while loop of the monotonic branch, walking the suffix of
the sample vector that starts at index p:
while (avg(samples[p].second) > avg(value) * sign) { lastVal = samples[p].second; p++; }
Running off the end — where the source's loop condition would read
out of bounds — yields none. -/
def advancePGo (target sign : ℚ) :
    List (ℚ × Color) → ℕ → Color → Option (ℕ × Color)
  | [], _, _ => none
  | s :: suffix, p, lastVal =>
    if avg s.2 > target * sign then advancePGo target sign suffix (p + 1) s.2
    else some (p, lastVal)

/-- The while loop of the monotonic branch: advance p from its loop-carried
value over the whole sample vector. -/
def advanceP (samples : SampleVec Color) (target sign : ℚ) (p : ℕ)
    (lastVal : Color) : Option (ℕ × Color) :=
  advancePGo target sign (samples.drop p) p lastVal

/-- One iteration per fuel unit of the for loop of the monotonic branch
(for i = 1; i < numSamples; ++i):
t = i/(numSamples − 1); value = fit01(t, first, last); the while loop advances
p; factor = lerpfactor(avg(value), avg(lastVal), avg(samples[p].second)); the
pair passed to result->addSample is value fit01(factor, lastVal,
samples[p].second) at position fit01(factor, samples[p−1].first,
samples[p].first). none models the source's out-of-bounds reads (the while
condition running past the end, or samples[p−1] when p = 0). -/
def emitLoopGo (samples : SampleVec Color) (first lastC : Color) (sign : ℚ)
    (numSamples : ℕ) : ℕ → ℕ → ℕ → Color → Option (List (ℚ × Color))
  | 0, _, _, _ => some []
  | fuel + 1, i, p, lastVal =>
    let t : ℚ := (i : ℚ) / ((numSamples : ℚ) - 1)
    let value := fit01C t first lastC
    match advanceP samples (avg value) sign p lastVal with
    | none => none
    | some (p2, lastVal2) =>
      if p2 = 0 then none
      else
        match samples.get? (p2 - 1), samples.get? p2 with
        | some sPrev, some sP =>
          let factor := lerpfactor (avg value) (avg lastVal2) (avg sP.2)
          let interp := fit01C factor lastVal2 sP.2
          let position := fit01 factor sPrev.1 sP.1
          (emitLoopGo samples first lastC sign numSamples fuel (i + 1) p2
            lastVal2).map (fun em => (position, interp) :: em)
        | _, _ => none

/-- The for loop of the monotonic branch starting at output index i: it runs
numSamples − i more iterations, emitting the (position, value) pairs passed
to result->addSample in call order. -/
def emitLoop (samples : SampleVec Color) (first lastC : Color) (sign : ℚ)
    (numSamples i p : ℕ) (lastVal : Color) : Option (List (ℚ × Color)) :=
  emitLoopGo samples first lastC sign numSamples (numSamples - i) i p lastVal

/-- The body of makeFixedSample (DeepImage.cpp), with the recursive call of
the violation branch abstracted as `recurse`. none models an out-of-bounds
std::vector access in the source; otherwise some (warned, result samples),
where `warned` records whether Log::warning was called. The violation branch
recursively resamples ColorCurve(Color(0.0)), i.e. the one-sample curve
[(0, colorZero)]. The monotonic branch first adds the source's first sample
verbatim, then folds result->addSample over the emitted pairs (the
`monotonic` flag in the source is always true, so the non-monotonic else
branch is unreachable). -/
def makeFixedSampleStep
    (recurse : SampleVec Color → ℕ → Option (Bool × SampleVec Color)) :
    SampleVec Color → ℕ → Option (Bool × SampleVec Color)
  | [], numSamples => some (false, fixedValueCurve numSamples colorZero)
  | [s], numSamples => some (false, fixedValueCurve numSamples s.2)
  | s0 :: s1 :: rest, numSamples =>
    let first := s0.2
    let lastC := ((s1 :: rest).getLastD s1).2
    let sign : ℚ := if first.x ≥ lastC.x then 1 else -1
    if monotonicViolation sign s0.2 (s1 :: rest) then
      (recurse [(0, colorZero)] numSamples).map (fun r => (true, r.2))
    else
      (emitLoop (s0 :: s1 :: rest) first lastC sign numSamples 1 0
        s0.2).map
        (fun em =>
          (false, ((s0.1, s0.2) :: em).foldl
            (fun acc pr => addSample acc pr.1 pr.2) []))

/-- makeFixedSample (DeepImage.cpp). The source's recursion is always on the
fixed one-sample curve [(0, colorZero)], which returns from the
one-sample branch without recursing again, so the recursion depth never
exceeds two and the fixpoint is the twofold unrolling of the body. -/
def makeFixedSample : SampleVec Color → ℕ → Option (Bool × SampleVec Color) :=
  makeFixedSampleStep (makeFixedSampleStep (fun _ _ => none))

/-- A two-sample source curve whose values are all equal; it passes the
monotonicity check (sign = +1, no channel strictly exceeds the first
sample's channels). -/
def allEqualCurve : SampleVec Color := [(0, ⟨1, 1, 1⟩), (1, ⟨1, 1, 1⟩)]

/-- A three-sample source that is non-monotonic between indices 1 and 2
(values 2, 1, 3/2 on every channel) but whose samples never exceed the first
sample's channels. -/
def nonMonotonicCurve : SampleVec Color :=
  [(0, ⟨2, 2, 2⟩), (1, ⟨1, 1, 1⟩), (2, ⟨3/2, 3/2, 3/2⟩)]

/-- Modelled from the spec (§4.3): Util::lerp2D, the bilinear blend used by
DeepImage::lerp, is not among the provided sources; blend in x on both rows
with the x fraction, then blend the rows with the y fraction. -/
def lerp2D (s t : ℚ) (c00 c10 c01 c11 : Color) : Color :=
  lerpC (lerpC c00 c10 s) (lerpC c01 c11 s) t

/-- DeepImage: width × height pixel curves, stored by value in row-major
order (m_pixels[x + y * m_width], as in pixelFunction). -/
structure DeepImage where
  width : ℕ
  height : ℕ
  pixels : List (SampleVec Color)

/-- DeepImage::pixel(x, y): m_pixels[x + y * m_width]. -/
def DeepImage.pixel (img : DeepImage) (x y : ℕ) : SampleVec Color :=
  img.pixels.getD (x + y * img.width) []

/-- DeepImage::lerp(rsX, rsY, z): the four neighbor pixel coordinates are the
floor/ceil of rsX and rsY, clamped into [0, width−1] × [0, height−1]; each
neighbor's curve is interpolated at z and the four colors are blended
bilinearly with the fractional offsets rsX − xMin and rsY − yMin. The source
converts the std::floor/std::ceil results to size_t before clamping; for
nonnegative raster coordinates that equals clamping the integer floor/ceil as
modelled here (negative coordinates underflow size_t in the source and are
undefined behavior). -/
def DeepImage.lerp (img : DeepImage) (rsX rsY z : ℚ) : Color :=
  let xMin := min (Int.toNat ⌊rsX⌋) (img.width - 1)
  let xMax := min (Int.toNat ⌈rsX⌉) (img.width - 1)
  let yMin := min (Int.toNat ⌊rsY⌋) (img.height - 1)
  let yMax := min (Int.toNat ⌈rsY⌉) (img.height - 1)
  lerp2D (rsX - (xMin : ℚ)) (rsY - (yMin : ℚ))
    (interpolate colorOps (img.pixel xMin yMin) z)
    (interpolate colorOps (img.pixel xMax yMin) z)
    (interpolate colorOps (img.pixel xMin yMax) z)
    (interpolate colorOps (img.pixel xMax yMax) z)

/-- A 2×2 deep image whose four pixels hold single-sample constant-color
curves. -/
def demoGrid : DeepImage :=
  ⟨2, 2, [[((0:ℚ), Color.mk 1 0 0)], [((0:ℚ), Color.mk 0 1 0)],
          [((0:ℚ), Color.mk 0 0 1)], [((0:ℚ), Color.mk 1 1 1)]]⟩

/-- The state model for curve ownership: the grid stores its pixel curves by
value (std::vector<ColorCurve> m_pixels), while ColorCurve::Ptr allocations
(boost shared pointers) live on a heap modelled as a list of curves indexed
by allocation order. -/
structure DeepImageHeap where
  img : DeepImage
  heap : List (SampleVec Color)

/-- DeepImage::pixelFunction(x, y): ColorCurve::Ptr(new
ColorCurve(m_pixels[x + y * m_width])) — allocates a fresh heap cell holding
a copy of the stored samples and returns its address. -/
def pixelFunction (st : DeepImageHeap) (x y : ℕ) : DeepImageHeap × ℕ :=
  (⟨st.img, st.heap ++ [st.img.pixel x y]⟩, st.heap.length)

/-- Curve<Color>::addSample invoked through a ColorCurve::Ptr: mutates the
pointed-to heap cell only. -/
def ptrAddSample (st : DeepImageHeap) (ptr : ℕ) (t : ℚ) (v : Color) :
    DeepImageHeap :=
  ⟨st.img, st.heap.set ptr (addSample (st.heap.getD ptr []) t v)⟩

/-- A sequence of addSample calls applied through the same pointer. -/
def applyMuts (ptr : ℕ) : DeepImageHeap → List (ℚ × Color) → DeepImageHeap
  | st, [] => st
  | st, m :: ms => applyMuts ptr (ptrAddSample st ptr m.1 m.2) ms

/-- A 3-component vector (Imath::V3d). -/
structure Vec3 where
  x : ℚ
  y : ℚ
  z : ℚ
deriving DecidableEq, Repr

/-- Dot product of two vectors. -/
def dot (a b : Vec3) : ℚ := a.x * b.x + a.y * b.y + a.z * b.z

/-- A ray: origin and direction; t parameterizes pos + t * dir. -/
structure Ray where
  pos : Vec3
  dir : Vec3
deriving DecidableEq, Repr

/-- The point at parameter t along a ray. -/
def rayAt (r : Ray) (t : ℚ) : Vec3 :=
  ⟨r.pos.x + t * r.dir.x, r.pos.y + t * r.dir.y, r.pos.z + t * r.dir.z⟩

/-- A half-space plane: the points p with dot(normal, p) ≤ distance. -/
structure Plane where
  normal : Vec3
  distance : ℚ
deriving DecidableEq, Repr

/-- The six frustum planes in the source's order (m_planes[6] in
VoxelVolume.h): left, right, bottom, top, near, far. -/
structure Frustum where
  left : Plane
  right : Plane
  bottom : Plane
  top : Plane
  near : Plane
  far : Plane

def Frustum.planes (f : Frustum) : List Plane :=
  [f.left, f.right, f.bottom, f.top, f.near, f.far]

/-- Modelled from the spec (§4.4): one plane's narrowing step of
FrustumMappingIntersection::intersect, whose implementation is not among the
provided sources. The crossing parameter is
t = (distance − dot(normal, origin)) / dot(normal, direction); a plane with
dot(normal, direction) < 0 bounds from below (raises tMin), one with
dot(normal, direction) > 0 bounds from above (lowers tMax); a plane parallel
to the ray leaves the running interval unchanged. none stands for a still
unbounded side of the running interval. -/
def narrowPlane (ray : Ray) (acc : Option ℚ × Option ℚ) (pl : Plane) :
    Option ℚ × Option ℚ :=
  let dd := dot pl.normal ray.dir
  let tCross := (pl.distance - dot pl.normal ray.pos) / dd
  if dd < 0 then
    (some (match acc.1 with
           | none => tCross
           | some a => max a tCross), acc.2)
  else if 0 < dd then
    (acc.1, some (match acc.2 with
                  | none => tCross
                  | some b => min b tCross))
  else acc

/-- Modelled from the spec (§4.4): the running [tMin, tMax] after narrowing
by all the planes, starting unbounded on both sides. -/
def clipInterval (ray : Ray) (planes : List Plane) : Option ℚ × Option ℚ :=
  planes.foldl (narrowPlane ray) (none, none)

/-- The emptiness test tMin > tMax on the narrowed interval (false when a
side is still unbounded). -/
def emptyClip : Option ℚ × Option ℚ → Bool
  | (some a, some b) => decide (b < a)
  | _ => false

/-- Modelled from the spec (§4.4): FrustumMappingIntersection::intersect —
narrow [tMin, tMax] by the six planes; if tMin > tMax return zero intervals,
otherwise return exactly the single interval [tMin, tMax]. -/
def frustumIntersect (f : Frustum) (ray : Ray) :
    List (Option ℚ × Option ℚ) :=
  let c := clipInterval ray f.planes
  if emptyClip c then [] else [c]

/-- Membership of a ray parameter in a possibly half-unbounded interval. -/
def inClip (c : Option ℚ × Option ℚ) (t : ℚ) : Prop :=
  (∀ a, c.1 = some a → a ≤ t) ∧ (∀ b, c.2 = some b → t ≤ b)

/-- The half-space constraint of one plane, at ray parameter t. -/
def satPlane (ray : Ray) (pl : Plane) (t : ℚ) : Prop :=
  dot pl.normal (rayAt ray t) ≤ pl.distance

/-- The §8 symmetric test frustum: x ≤ 1, −x ≤ 1, −y ≤ 1, y ≤ 1, −z ≤ 0
(near plane z = 0), z ≤ 10 (far plane z = 10). -/
def demoFrustum : Frustum :=
  ⟨⟨⟨1, 0, 0⟩, 1⟩, ⟨⟨-1, 0, 0⟩, 1⟩, ⟨⟨0, -1, 0⟩, 1⟩, ⟨⟨0, 1, 0⟩, 1⟩,
   ⟨⟨0, 0, -1⟩, 0⟩, ⟨⟨0, 0, 1⟩, 10⟩⟩

/-- A ray from the origin along (1,1,1): not parallel to any of the six demo
frustum planes. -/
def demoRay : Ray := ⟨⟨0, 0, 0⟩, ⟨1, 1, 1⟩⟩

-- Theorems --------------------------------------------------------------------

-- Helper lemmas about addSample ----------------------------------------------

theorem addSample_take_drop {T : Type} (l : SampleVec T) (t : ℚ) (v : T) :
    addSample l t v
      = l.take (l.findIdx (fun s => decide (s.1 > t)))
        ++ (t, v) :: l.drop (l.findIdx (fun s => decide (s.1 > t))) := by
  induction l with
  | nil => simp [addSample]
  | cons s rest ih =>
    by_cases h : s.1 > t
    · simp [addSample, h, List.findIdx_cons]
    · simp [addSample, h, List.findIdx_cons, ih]

theorem addSample_length {T : Type} (l : SampleVec T) (t : ℚ) (v : T) :
    (addSample l t v).length = l.length + 1 := by
  induction l with
  | nil => simp [addSample]
  | cons s rest ih =>
    by_cases h : s.1 > t
    · simp [addSample, h]
    · simp [addSample, h, ih]

theorem mem_addSample {T : Type} {l : SampleVec T} {t : ℚ} {v : T}
    {x : ℚ × T} (hx : x ∈ addSample l t v) : x ∈ l ∨ x = (t, v) := by
  induction l with
  | nil => simp [addSample] at hx; simp [hx]
  | cons s rest ih =>
    by_cases h : s.1 > t
    · simp [addSample, h] at hx
      rcases hx with h1 | h2 | h3
      · right; simp [h1]
      · left; simp [h2]
      · left; simp [h3]
    · simp [addSample, h] at hx
      rcases hx with h1 | h2
      · left; simp [h1]
      · rcases ih h2 with h3 | h4
        · left; simp [h3]
        · right; exact h4

theorem addSample_sorted {T : Type} {l : SampleVec T} (t : ℚ) (v : T)
    (hl : SortedByPos l) : SortedByPos (addSample l t v) := by
  induction l with
  | nil => simp [addSample, SortedByPos]
  | cons s rest ih =>
    rw [SortedByPos, List.pairwise_cons] at hl
    obtain ⟨hs, hrest⟩ := hl
    by_cases h : s.1 > t
    · rw [addSample]
      simp only [h, if_true]
      rw [SortedByPos, List.pairwise_cons]
      constructor
      · intro x hx
        rcases List.mem_cons.mp hx with hx | hx
        · simp [hx]; exact le_of_lt h
        · exact le_trans (le_of_lt h) (hs x hx)
      · rw [SortedByPos] at *
        exact List.Pairwise.cons hs hrest
    · rw [addSample]
      simp only [h, if_false]
      rw [SortedByPos, List.pairwise_cons]
      constructor
      · intro x hx
        rcases mem_addSample hx with hx' | hx'
        · exact hs x hx'
        · simp [hx']
          exact le_of_not_lt h
      · exact ih hrest

theorem foldl_addSample_sorted {T : Type} (calls : List (ℚ × T))
    {l : SampleVec T} (hl : SortedByPos l) :
    SortedByPos (calls.foldl (fun acc c => addSample acc c.1 c.2) l) := by
  induction calls generalizing l with
  | nil => exact hl
  | cons c cs ih => exact ih (addSample_sorted c.1 c.2 hl)

-- Helper lemmas about interpolate --------------------------------------------

theorem interpolate_single {T : Type} (ops : CurveOps T) (s : ℚ × T) (t : ℚ) :
    interpolate ops [s] t = s.2 := by
  rw [interpolate]
  by_cases h : s.1 > t
  · simp [h]
  · simp [h, interpolateFrom]

theorem interpolateFrom_all_le {T : Type} (ops : CurveOps T) (t : ℚ) :
    ∀ (rest : SampleVec T) (lower glast : ℚ × T),
      (∀ x ∈ rest, x.1 ≤ t) → (lower :: rest).getLast? = some glast →
      interpolateFrom ops lower rest t = glast.2 := by
  intro rest
  induction rest with
  | nil =>
    intro lower glast _ hlast
    simp [List.getLast?] at hlast
    simp [interpolateFrom, hlast]
  | cons s rest2 ih =>
    intro lower glast hall hlast
    rw [interpolateFrom]
    have hs : ¬ (s.1 > t) := not_lt.mpr (hall s (by simp))
    rw [if_neg hs]
    exact ih s glast (fun x hx => hall x (by simp [hx]))
      (by rwa [List.getLast?_cons_cons] at hlast)

theorem interpolateFrom_bracket {T : Type} (ops : CurveOps T) (t : ℚ) :
    ∀ (rest : SampleVec T) (lower : ℚ × T) (k : ℕ) (low up : ℚ × T),
      SortedByPos (lower :: rest) → lower.1 ≤ t →
      (lower :: rest).get? k = some low → (lower :: rest).get? (k + 1) = some up →
      low.1 ≤ t → t < up.1 →
      interpolateFrom ops lower rest t
        = ops.lerp low.2 up.2 (lerpfactor t low.1 up.1) := by
  intro rest
  induction rest with
  | nil =>
    intro lower k low up _ _ _ hup _ _
    rcases k with _ | k <;> simp at hup
  | cons s rest2 ih =>
    intro lower k low up hsort hlow hk hk1 hlet hupt
    rw [SortedByPos, List.pairwise_cons] at hsort
    obtain ⟨hfirst, hrest⟩ := hsort
    rcases k with _ | k
    · -- low = lower, up = s
      simp only [List.get?] at hk hk1
      have hlow' : lower = low := by injection hk
      have hup' : s = up := by injection hk1
      rw [interpolateFrom]
      rw [← hup'] at hupt
      rw [if_pos hupt, ← hlow', ← hup']
    · -- low and up are further in; current head s has s.1 ≤ low.1 ≤ t
      simp only [List.get?] at hk hk1
      have hlowmem : low ∈ s :: rest2 := List.get?_mem hk
      have hst : s.1 ≤ t := by
        rcases List.mem_cons.mp hlowmem with hm | hm
        · rw [← hm]; exact hlet
        · rw [List.pairwise_cons] at hrest
          exact le_trans (hrest.1 low hm) hlet
      rw [interpolateFrom, if_neg (not_lt.mpr hst)]
      exact ih s k low up hrest hst hk hk1 hlet hupt

theorem sorted_le_getLast {T : Type} :
    ∀ (l : SampleVec T) (sn : ℚ × T), SortedByPos l → l.getLast? = some sn →
      ∀ x ∈ l, x.1 ≤ sn.1 := by
  intro l
  induction l with
  | nil => intro sn _ h; simp at h
  | cons s rest ih =>
    intro sn hsort hlast x hx
    rw [SortedByPos, List.pairwise_cons] at hsort
    rcases rest with _ | ⟨s2, rest2⟩
    · simp [List.getLast?] at hlast
      rcases List.mem_singleton.mp hx with h
      simp [h, ← hlast]
    · rw [List.getLast?_cons_cons] at hlast
      have hsn : sn ∈ s2 :: rest2 := by
        obtain ⟨hne, rfl⟩ := List.mem_getLast?_eq_getLast
          (show sn ∈ (s2 :: rest2).getLast? from hlast)
        exact List.getLast_mem hne
      rcases List.mem_cons.mp hx with hm | hm
      · rw [hm]; exact hsort.1 sn hsn
      · exact ih sn hsort.2 hlast x hm

/-- C1: Curve<T>::interpolate returns the type's defaultReturnValue on an
empty curve (Color(0) for colors, the identity orientation Quat() for
rotations), the single sample's value for every t on a one-sample curve, and
on curves of two or more samples clamps to the first sample's value below the
range, clamps to the last sample's value at or above the range, and otherwise
blends the bracketing samples with fraction
(t − lower.position) / (upper.position − lower.position) using the type's
blend operation (linear lerp for scalar/vector/color, slerp for rotations —
the `ops.lerp` field of the corresponding specialization). -/
theorem C1_interpolate {T : Type} (ops : CurveOps T) (samples : SampleVec T)
    (t : ℚ) (hsorted : SortedByPos samples) :
    (samples = [] → interpolate ops samples t = ops.defaultReturnValue)
    ∧ (∀ s, samples = [s] → interpolate ops samples t = s.2)
    ∧ (2 ≤ samples.length →
        (∀ s0, samples.head? = some s0 → t < s0.1 →
          interpolate ops samples t = s0.2)
        ∧ (∀ sn, samples.getLast? = some sn → sn.1 ≤ t →
          interpolate ops samples t = sn.2)
        ∧ (∀ k low up, samples.get? k = some low →
            samples.get? (k + 1) = some up →
            low.1 ≤ t → t < up.1 →
            interpolate ops samples t
              = ops.lerp low.2 up.2 ((t - low.1) / (up.1 - low.1))))
    ∧ interpolate colorOps [] t = ⟨0, 0, 0⟩
    ∧ (∀ slerp, interpolate (quatOps slerp) [] t = ⟨1, 0, 0, 0⟩) := by
  refine ⟨?_, ?_, ?_, rfl, fun _ => rfl⟩
  · intro h; rw [h]; rfl
  · intro s h; rw [h]; exact interpolate_single ops s t
  · intro hlen
    refine ⟨?_, ?_, ?_⟩
    · intro s0 hh ht
      rcases samples with _ | ⟨s, rest⟩
      · simp at hh
      · simp at hh
        rw [interpolate, if_pos (by rw [hh]; exact ht)]
        rw [hh]
    · intro sn hlast hle
      rcases samples with _ | ⟨s, rest⟩
      · simp at hlast
      · have hall : ∀ x ∈ s :: rest, x.1 ≤ t :=
          fun x hx => le_trans (sorted_le_getLast (s :: rest) sn hsorted hlast x hx) hle
        rw [interpolate, if_neg (not_lt.mpr (hall s (by simp)))]
        exact interpolateFrom_all_le ops t rest s sn
          (fun x hx => hall x (by simp [hx])) hlast
    · intro k low up hk hk1 hlet hupt
      rcases samples with _ | ⟨s, rest⟩
      · simp at hk
      have hmem : low ∈ s :: rest := List.get?_mem hk
      have hslow : s.1 ≤ low.1 := by
        rcases List.mem_cons.mp hmem with hm | hm
        · rw [hm]
        · rw [SortedByPos, List.pairwise_cons] at hsorted
          exact hsorted.1 low hm
      have hs : ¬ (s.1 > t) := not_lt.mpr (le_trans hslow hlet)
      rw [interpolate, if_neg hs]
      have hb := interpolateFrom_bracket ops t rest s k low up hsorted
        (le_trans hslow hlet) hk hk1 hlet hupt
      simpa [lerpfactor] using hb

/-- Witness for C1: a concrete sorted two-sample color curve, evaluated in the
interior of the range. -/
theorem C1_interpolate_witness :
    SortedByPos [((0:ℚ), Color.mk 0 0 0), ((1:ℚ), Color.mk 10 10 10)]
    ∧ (1:ℚ)/2 < 1
    ∧ interpolate colorOps [((0:ℚ), Color.mk 0 0 0), ((1:ℚ), Color.mk 10 10 10)]
        ((1:ℚ)/2)
      = colorOps.lerp (Color.mk 0 0 0) (Color.mk 10 10 10)
          (((1:ℚ)/2 - 0) / (1 - 0)) :=
  ⟨by decide, by norm_num, by
    have h := (C1_interpolate colorOps
      [((0:ℚ), Color.mk 0 0 0), ((1:ℚ), Color.mk 10 10 10)] ((1:ℚ)/2)
      (by decide)).2.2.1 (by decide)
    exact h.2.2 0 ((0:ℚ), Color.mk 0 0 0) ((1:ℚ), Color.mk 10 10 10)
      rfl rfl (by norm_num) (by norm_num)⟩

/-- C2: Curve<T>::addSample always inserts the new sample immediately before
the first stored sample whose position is strictly greater than the given
position (appending when none exists), never fails or rejects a duplicate
position (the sample count always grows by one), preserves the
non-decreasing-by-position ordering, and after any finite sequence of
addSample calls starting from the empty curve the stored sequence is
non-decreasing by position. -/
theorem C2_addSample {T : Type} (l : SampleVec T) (t : ℚ) (v : T)
    (calls : List (ℚ × T)) :
    (addSample l t v
      = l.take (l.findIdx (fun s => decide (s.1 > t)))
        ++ (t, v) :: l.drop (l.findIdx (fun s => decide (s.1 > t))))
    ∧ (addSample l t v).length = l.length + 1
    ∧ (SortedByPos l → SortedByPos (addSample l t v))
    ∧ SortedByPos (calls.foldl (fun acc c => addSample acc c.1 c.2) []) :=
  ⟨addSample_take_drop l t v, addSample_length l t v,
   fun h => addSample_sorted t v h,
   foldl_addSample_sorted calls (by simp [SortedByPos])⟩

/-- Witness for C2: inserting a duplicate position lands the new sample after
the earlier equal-position sample, the curve stays sorted. -/
theorem C2_addSample_witness :
    SortedByPos [((0:ℚ), (5:ℚ))]
    ∧ SortedByPos (addSample [((0:ℚ), (5:ℚ))] 0 7)
    ∧ addSample [((0:ℚ), (5:ℚ))] 0 7 = [((0:ℚ), (5:ℚ)), ((0:ℚ), (7:ℚ))] :=
  ⟨by decide, (C2_addSample [((0:ℚ), (5:ℚ))] 0 7 []).2.2.1 (by decide), by decide⟩

/-- C3, code evaluated at the failing input: on the all-equal two-sample
source — which passes the monotonicity check — makeFixedSample with
numSamples = 2 does not produce 2 samples: at output index i = 1 the while
loop leaves p = 0 and the source reads samples[p−1] out of bounds (modelled
as none), instead of yielding a curve of exactly numSamples samples. -/
theorem C3_output_size_fails_on_allEqual : makeFixedSample allEqualCurve 2 = none := by
  norm_num [allEqualCurve, makeFixedSample, makeFixedSampleStep,
    monotonicViolation, emitLoop, emitLoopGo, advanceP, advancePGo,
    fit01C, fit01, avg]

/-- C10, code evaluated at the failing input: on the all-equal two-sample
source the monotonicity check passes, yet at the first output index (i = 1)
the loop-carried scan pointer is still p = 0 when samples[p−1] and samples[p]
are read, so the claimed bound 1 ≤ p fails and the samples[p−1] access is out
of bounds (the emit loop aborts, modelled as none). -/
theorem C10_scan_pointer_can_be_zero :
    monotonicViolation 1 ⟨1, 1, 1⟩ [((1:ℚ), ⟨1, 1, 1⟩)] = false
    ∧ advanceP allEqualCurve
        (avg (fit01C ((1:ℚ) / ((2:ℚ) - 1)) ⟨1, 1, 1⟩ ⟨1, 1, 1⟩)) 1 0 ⟨1, 1, 1⟩
      = some (0, ⟨1, 1, 1⟩)
    ∧ emitLoop allEqualCurve ⟨1, 1, 1⟩ ⟨1, 1, 1⟩ 1 2 1 0 ⟨1, 1, 1⟩ = none := by
  refine ⟨by simp [monotonicViolation], ?_, ?_⟩
  · norm_num [allEqualCurve, advanceP, advancePGo, fit01C, fit01, avg]
  · norm_num [allEqualCurve, emitLoop, emitLoopGo, advanceP, advancePGo,
      fit01C, fit01, avg]

/-- C4, code evaluated at the failing input: with sign = +1 and first sample
value (2,2,2), the source's scan (lastVal never updated) reports no violation
on values 2, 1, 3/2, whereas the predecessor-comparison scan the claim
describes reports one (3/2 > 1); consequently makeFixedSample takes the
monotonic branch and emits no warning on this non-monotonic input. -/
theorem C4_check_compares_against_first_sample :
    monotonicViolation 1 ⟨2, 2, 2⟩
        [((1:ℚ), ⟨1, 1, 1⟩), ((2:ℚ), ⟨3/2, 3/2, 3/2⟩)] = false
    ∧ predecessorViolation 1 ⟨2, 2, 2⟩
        [((1:ℚ), ⟨1, 1, 1⟩), ((2:ℚ), ⟨3/2, 3/2, 3/2⟩)] = true
    ∧ (makeFixedSample nonMonotonicCurve 2).map Prod.fst = some false := by
  refine ⟨by norm_num [monotonicViolation], by norm_num [predecessorViolation], ?_⟩
  norm_num [nonMonotonicCurve, makeFixedSample, makeFixedSampleStep,
    monotonicViolation, emitLoop, emitLoopGo, advanceP, advancePGo,
    fit01C, fit01, avg, lerpfactor]

/-- C5: whenever the monotonicity check reports a violation on a source with
at least two samples, makeFixedSample warns (warned = true) and returns the
result of recursively resampling the one-sample zero curve: exactly
numSamples samples, every one the zero color; no error is raised or
propagated (the result is some, for every numSamples). -/
theorem C5_violation_warns_and_degrades_to_zero
    (s0 s1 : ℚ × Color) (rest : List (ℚ × Color)) (numSamples : ℕ)
    (hviol : monotonicViolation
        (if s0.2.x ≥ (((s1 :: rest).getLastD s1).2).x then (1:ℚ) else -1)
        s0.2 (s1 :: rest) = true) :
    makeFixedSample (s0 :: s1 :: rest) numSamples
      = some (true, fixedValueCurve numSamples colorZero)
    ∧ (fixedValueCurve numSamples colorZero).length = numSamples
    ∧ ∀ pr ∈ fixedValueCurve numSamples colorZero, pr.2 = colorZero := by
  refine ⟨?_, ?_, ?_⟩
  · rw [makeFixedSample, makeFixedSampleStep]
    simp only [hviol, if_true]
    rw [makeFixedSampleStep]
    rfl
  · simp only [fixedValueCurve, List.length_map, List.length_range]
  · intro pr hpr
    simp only [fixedValueCurve, List.mem_map] at hpr
    obtain ⟨i, _, hi⟩ := hpr
    simp [← hi]

/-- Witness for C5: a concrete increasing curve (sign = −1) that the check
reports as a violation, resampled to 3 samples. -/
theorem C5_violation_witness :
    monotonicViolation
        (if (Color.mk 0 0 0).x ≥
            ((([((1:ℚ), Color.mk 1 1 1)]).getLastD ((1:ℚ), Color.mk 1 1 1)).2).x
         then (1:ℚ) else -1)
        (Color.mk 0 0 0) [((1:ℚ), Color.mk 1 1 1)] = true
    ∧ makeFixedSample [((0:ℚ), Color.mk 0 0 0), ((1:ℚ), Color.mk 1 1 1)] 3
        = some (true, fixedValueCurve 3 colorZero) :=
  ⟨by norm_num [monotonicViolation],
   (C5_violation_warns_and_degrades_to_zero ((0:ℚ), Color.mk 0 0 0)
      ((1:ℚ), Color.mk 1 1 1) [] 3 (by norm_num [monotonicViolation])).1⟩

-- Claim C6: the monotonic branch ----------------------------------------------

theorem advancePGo_sound (samples : SampleVec Color) (target sign : ℚ) :
    ∀ (l : List (ℚ × Color)) (p : ℕ) (lastVal : Color) (p2 : ℕ)
      (lastVal2 : Color),
      samples.drop p = l →
      advancePGo target sign l p lastVal = some (p2, lastVal2) →
      p ≤ p2
      ∧ (∀ j, p ≤ j → j < p2 → ∃ sj, samples.get? j = some sj
          ∧ avg sj.2 > target * sign)
      ∧ (∃ s2, samples.get? p2 = some s2 ∧ ¬ (avg s2.2 > target * sign))
      ∧ ((p2 = p ∧ lastVal2 = lastVal)
         ∨ (p < p2 ∧ ∃ sprev, samples.get? (p2 - 1) = some sprev
             ∧ lastVal2 = sprev.2)) := by
  intro l
  induction l with
  | nil =>
    intro p lastVal p2 lastVal2 _ hadv
    simp [advancePGo] at hadv
  | cons s ltail ih =>
    intro p lastVal p2 lastVal2 hdrop hadv
    have hget : samples.get? p = some s := by
      have h0 := List.get?_drop samples p 0
      rw [hdrop] at h0
      simpa using h0.symm
    have hdrop2 : samples.drop (p + 1) = ltail := by
      have hdd := List.drop_drop 1 p samples
      rw [hdrop] at hdd
      simpa [Nat.add_comm] using hdd.symm
    rw [advancePGo] at hadv
    by_cases hc : avg s.2 > target * sign
    · rw [if_pos hc] at hadv
      obtain ⟨hle, hbetween, hstop, hlast⟩ :=
        ih (p + 1) s.2 p2 lastVal2 hdrop2 hadv
      refine ⟨by omega, ?_, hstop, ?_⟩
      · intro j hpj hjp2
        rcases Nat.lt_or_ge j (p + 1) with hj | hj
        · have hjp : j = p := by omega
          subst hjp
          exact ⟨s, hget, hc⟩
        · exact hbetween j hj hjp2
      · rcases hlast with ⟨hp2eq, hveq⟩ | ⟨hlt, sprev, hprev, hveq⟩
        · right
          refine ⟨by omega, s, ?_, hveq⟩
          rw [hp2eq]
          simpa using hget
        · right
          exact ⟨by omega, sprev, hprev, hveq⟩
    · rw [if_neg hc] at hadv
      simp only [Option.some.injEq, Prod.mk.injEq] at hadv
      obtain ⟨h1, h2⟩ := hadv
      subst h1
      subst h2
      exact ⟨le_refl p, by intro j hj1 hj2; omega, ⟨s, hget, hc⟩,
        Or.inl ⟨rfl, rfl⟩⟩

theorem emitLoop_step (samples : SampleVec Color) (first lastC : Color)
    (sign : ℚ) (n i p p2 : ℕ) (lastVal lastVal2 : Color)
    (sPrev sP : ℚ × Color) (hi : i < n)
    (hadv : advanceP samples
        (avg (fit01C ((i : ℚ) / ((n : ℚ) - 1)) first lastC)) sign p lastVal
      = some (p2, lastVal2))
    (hp2 : p2 ≠ 0)
    (hprev : samples.get? (p2 - 1) = some sPrev)
    (hsp : samples.get? p2 = some sP) :
    emitLoop samples first lastC sign n i p lastVal
      = (emitLoop samples first lastC sign n (i + 1) p2 lastVal2).map
          (fun em =>
            (fit01 (lerpfactor
                (avg (fit01C ((i : ℚ) / ((n : ℚ) - 1)) first lastC))
                (avg lastVal2) (avg sP.2)) sPrev.1 sP.1,
             fit01C (lerpfactor
                (avg (fit01C ((i : ℚ) / ((n : ℚ) - 1)) first lastC))
                (avg lastVal2) (avg sP.2)) lastVal2 sP.2) :: em) := by
  rw [emitLoop, emitLoop,
    show n - i = (n - (i + 1)) + 1 from by omega, emitLoopGo]
  simp only [hadv, hp2, hprev, hsp, if_false]

theorem makeFixedSample_monotonic_branch (s0 s1 : ℚ × Color)
    (rest : List (ℚ × Color)) (n : ℕ)
    (hviol : monotonicViolation
        (if s0.2.x ≥ (((s1 :: rest).getLastD s1).2).x then (1:ℚ) else -1)
        s0.2 (s1 :: rest) = false) :
    makeFixedSample (s0 :: s1 :: rest) n
      = (emitLoop (s0 :: s1 :: rest) s0.2 (((s1 :: rest).getLastD s1).2)
          (if s0.2.x ≥ (((s1 :: rest).getLastD s1).2).x then (1:ℚ) else -1)
          n 1 0 s0.2).map
          (fun em =>
            (false, ((s0.1, s0.2) :: em).foldl
              (fun acc pr => addSample acc pr.1 pr.2) [])) := by
  rw [makeFixedSample]
  simp only [makeFixedSampleStep, hviol, Bool.false_eq_true, if_false]

/-- C6: the monotonic branch of makeFixedSample. (a) When the check passes,
the result folds result->addSample over the source's first sample verbatim
followed by the emitted pairs, with the scan state starting at i = 1, p = 0,
lastVal = first value. (b) Each output step i < N computes
targetColor = fit01(i/(N−1), first, last); after the while loop leaves the
loop-carried pointer at p2 with recorded lastVal2, the emitted value is
fit01(factor, lastVal2, samples[p2].value) at position
fit01(factor, samples[p2−1].position, samples[p2].position) with
factor = lerpfactor(avg targetColor, avg lastVal2, avg samples[p2].value),
and the loop continues at i + 1 from p2 (the pointer is loop-carried, never
reset). (c) The while loop only moves p forward, passes exactly the samples
whose channel mean exceeds avg(targetColor) * sign, stops at the first that
does not, and records the last passed value in lastVal2. -/
theorem C6_monotonic_resample
    (s0 s1 : ℚ × Color) (rest : List (ℚ × Color))
    (samples : SampleVec Color) (first lastC lastVal lastVal2 : Color)
    (sign target : ℚ) (n i p p2 : ℕ) (sPrev sP : ℚ × Color) :
    (monotonicViolation
        (if s0.2.x ≥ (((s1 :: rest).getLastD s1).2).x then (1:ℚ) else -1)
        s0.2 (s1 :: rest) = false →
      makeFixedSample (s0 :: s1 :: rest) n
        = (emitLoop (s0 :: s1 :: rest) s0.2 (((s1 :: rest).getLastD s1).2)
            (if s0.2.x ≥ (((s1 :: rest).getLastD s1).2).x then (1:ℚ) else -1)
            n 1 0 s0.2).map
            (fun em =>
              (false, ((s0.1, s0.2) :: em).foldl
                (fun acc pr => addSample acc pr.1 pr.2) [])))
    ∧ (i < n →
        advanceP samples
            (avg (fit01C ((i : ℚ) / ((n : ℚ) - 1)) first lastC)) sign p lastVal
          = some (p2, lastVal2) →
        p2 ≠ 0 →
        samples.get? (p2 - 1) = some sPrev →
        samples.get? p2 = some sP →
        emitLoop samples first lastC sign n i p lastVal
          = (emitLoop samples first lastC sign n (i + 1) p2 lastVal2).map
              (fun em =>
                (fit01 (lerpfactor
                    (avg (fit01C ((i : ℚ) / ((n : ℚ) - 1)) first lastC))
                    (avg lastVal2) (avg sP.2)) sPrev.1 sP.1,
                 fit01C (lerpfactor
                    (avg (fit01C ((i : ℚ) / ((n : ℚ) - 1)) first lastC))
                    (avg lastVal2) (avg sP.2)) lastVal2 sP.2) :: em))
    ∧ (advanceP samples target sign p lastVal = some (p2, lastVal2) →
        p ≤ p2
        ∧ (∀ j, p ≤ j → j < p2 → ∃ sj, samples.get? j = some sj
            ∧ avg sj.2 > target * sign)
        ∧ (∃ s2, samples.get? p2 = some s2 ∧ ¬ (avg s2.2 > target * sign))
        ∧ ((p2 = p ∧ lastVal2 = lastVal)
           ∨ (p < p2 ∧ ∃ sprev, samples.get? (p2 - 1) = some sprev
               ∧ lastVal2 = sprev.2))) :=
  ⟨fun hviol => makeFixedSample_monotonic_branch s0 s1 rest n hviol,
   fun hi hadv hp2 hprev hsp =>
     emitLoop_step samples first lastC sign n i p p2 lastVal lastVal2
       sPrev sP hi hadv hp2 hprev hsp,
   fun hadv =>
     advancePGo_sound samples target sign (samples.drop p) p lastVal p2
       lastVal2 rfl hadv⟩

/-- Witness for C6 at the two-sample decreasing curve (2,2,2) → (1,1,1) with
n = 3: at output index i = 1 the while loop advances the loop-carried pointer
from 0 to 1 and records lastVal = (2,2,2). -/
theorem C6_monotonic_resample_witness :
    (makeFixedSample [((0:ℚ), Color.mk 2 2 2), ((1:ℚ), Color.mk 1 1 1)] 3
      = (emitLoop [((0:ℚ), Color.mk 2 2 2), ((1:ℚ), Color.mk 1 1 1)]
          (Color.mk 2 2 2)
          (([((1:ℚ), Color.mk 1 1 1)].getLastD ((1:ℚ), Color.mk 1 1 1)).2)
          (if (Color.mk 2 2 2).x ≥
              (([((1:ℚ), Color.mk 1 1 1)].getLastD
                ((1:ℚ), Color.mk 1 1 1)).2).x
           then (1:ℚ) else -1)
          3 1 0 (Color.mk 2 2 2)).map
          (fun em =>
            (false, (((0:ℚ), Color.mk 2 2 2) :: em).foldl
              (fun acc pr => addSample acc pr.1 pr.2) [])))
    ∧ (emitLoop [((0:ℚ), Color.mk 2 2 2), ((1:ℚ), Color.mk 1 1 1)]
        (Color.mk 2 2 2) (Color.mk 1 1 1) 1 3 1 0 (Color.mk 2 2 2)
      = (emitLoop [((0:ℚ), Color.mk 2 2 2), ((1:ℚ), Color.mk 1 1 1)]
          (Color.mk 2 2 2) (Color.mk 1 1 1) 1 3 2 1 (Color.mk 2 2 2)).map
          (fun em =>
            (fit01 (lerpfactor
                (avg (fit01C ((1 : ℚ) / ((3 : ℚ) - 1)) (Color.mk 2 2 2)
                  (Color.mk 1 1 1)))
                (avg (Color.mk 2 2 2)) (avg (Color.mk 1 1 1)))
              (0:ℚ) (1:ℚ),
             fit01C (lerpfactor
                (avg (fit01C ((1 : ℚ) / ((3 : ℚ) - 1)) (Color.mk 2 2 2)
                  (Color.mk 1 1 1)))
                (avg (Color.mk 2 2 2)) (avg (Color.mk 1 1 1)))
              (Color.mk 2 2 2) (Color.mk 1 1 1)) :: em))
    ∧ ((0:ℕ) ≤ 1
       ∧ (∀ j, 0 ≤ j → j < 1 → ∃ sj,
            [((0:ℚ), Color.mk 2 2 2), ((1:ℚ), Color.mk 1 1 1)].get? j
              = some sj
            ∧ avg sj.2 > (3/2 : ℚ) * 1)
       ∧ (∃ s2,
            [((0:ℚ), Color.mk 2 2 2), ((1:ℚ), Color.mk 1 1 1)].get? 1
              = some s2
            ∧ ¬ (avg s2.2 > (3/2 : ℚ) * 1))
       ∧ (((1:ℕ) = 0 ∧ Color.mk 2 2 2 = Color.mk 2 2 2)
          ∨ ((0:ℕ) < 1 ∧ ∃ sprev,
              [((0:ℚ), Color.mk 2 2 2), ((1:ℚ), Color.mk 1 1 1)].get? (1 - 1)
                = some sprev
              ∧ Color.mk 2 2 2 = sprev.2))) := by
  refine ⟨?_, ?_, ?_⟩
  · exact (C6_monotonic_resample ((0:ℚ), Color.mk 2 2 2)
      ((1:ℚ), Color.mk 1 1 1) []
      [((0:ℚ), Color.mk 2 2 2), ((1:ℚ), Color.mk 1 1 1)]
      (Color.mk 2 2 2) (Color.mk 1 1 1) (Color.mk 2 2 2) (Color.mk 2 2 2)
      1 (3/2) 3 1 0 1 ((0:ℚ), Color.mk 2 2 2) ((1:ℚ), Color.mk 1 1 1)).1
      (by norm_num [monotonicViolation])
  · exact (C6_monotonic_resample ((0:ℚ), Color.mk 2 2 2)
      ((1:ℚ), Color.mk 1 1 1) []
      [((0:ℚ), Color.mk 2 2 2), ((1:ℚ), Color.mk 1 1 1)]
      (Color.mk 2 2 2) (Color.mk 1 1 1) (Color.mk 2 2 2) (Color.mk 2 2 2)
      1 (3/2) 3 1 0 1 ((0:ℚ), Color.mk 2 2 2) ((1:ℚ), Color.mk 1 1 1)).2.1
      (by norm_num)
      (by norm_num [advanceP, advancePGo, List.drop, fit01C, fit01, avg])
      (by norm_num) rfl rfl
  · exact (C6_monotonic_resample ((0:ℚ), Color.mk 2 2 2)
      ((1:ℚ), Color.mk 1 1 1) []
      [((0:ℚ), Color.mk 2 2 2), ((1:ℚ), Color.mk 1 1 1)]
      (Color.mk 2 2 2) (Color.mk 1 1 1) (Color.mk 2 2 2) (Color.mk 2 2 2)
      1 (3/2) 3 1 0 1 ((0:ℚ), Color.mk 2 2 2) ((1:ℚ), Color.mk 1 1 1)).2.2
      (by norm_num [advanceP, advancePGo, List.drop, avg])

theorem lerpC_zero (a b : Color) : lerpC a b 0 = a := by
  simp [lerpC, lerpQ]

theorem lerpC_half (a b : Color) :
    lerpC a b (1/2) = ⟨(a.x + b.x) / 2, (a.y + b.y) / 2, (a.z + b.z) / 2⟩ := by
  simp only [lerpC, lerpQ, Color.mk.injEq]
  refine ⟨by ring, by ring, by ring⟩

/-- C7: DeepImage::lerp evaluates the four clamped floor/ceil neighbors at
depth z via interpolate and blends them bilinearly with the fractional
offsets; consequently, at an exact in-range integer pixel coordinate it
returns that pixel's interpolated curve value, and at the exact midpoint of a
2×2 grid of single-sample constant-color curves it returns the arithmetic
mean of the four colors. -/
theorem C7_lookup (img : DeepImage) (x y : ℕ) (z : ℚ)
    (hx : x < img.width) (hy : y < img.height)
    (z00 z10 z01 z11 : ℚ) (c00 c10 c01 c11 : Color) :
    (img.lerp (x : ℚ) (y : ℚ) z = interpolate colorOps (img.pixel x y) z)
    ∧ (∀ img2 : DeepImage, img2.width = 2 → img2.height = 2 →
        img2.pixels = [[(z00, c00)], [(z10, c10)], [(z01, c01)], [(z11, c11)]] →
        ∀ d : ℚ, img2.lerp (1/2) (1/2) d
          = ⟨(c00.x + c10.x + c01.x + c11.x) / 4,
             (c00.y + c10.y + c01.y + c11.y) / 4,
             (c00.z + c10.z + c01.z + c11.z) / 4⟩) := by
  constructor
  · rw [DeepImage.lerp]
    simp only [Int.floor_natCast, Int.ceil_natCast, Int.toNat_natCast]
    rw [min_eq_left (by omega), min_eq_left (by omega), sub_self, sub_self]
    rw [lerp2D, lerpC_zero, lerpC_zero]
  · intro img2 hw hh hp d
    rw [DeepImage.lerp]
    have hf : ⌊(1/2 : ℚ)⌋ = 0 := by norm_num
    have hc : ⌈(1/2 : ℚ)⌉ = 1 := by
      rw [Int.ceil_eq_iff]
      norm_num
    simp only [hf, hc, hw, hh, hp, Int.toNat_zero, Int.toNat_one,
      DeepImage.pixel]
    norm_num [List.getD, interpolate_single, lerp2D, lerpC_half]
    refine ⟨by ring, by ring, by ring⟩

/-- Witness for C7: lookup of the demo grid at the exact pixel (1, 0) and at
the midpoint of the four pixels. -/
theorem C7_lookup_witness :
    DeepImage.lerp demoGrid ((1:ℕ) : ℚ) ((0:ℕ) : ℚ) 5
      = interpolate colorOps (DeepImage.pixel demoGrid 1 0) 5
    ∧ DeepImage.lerp demoGrid (1/2) (1/2) 5
      = ⟨(1 + 0 + 0 + 1) / 4, (0 + 1 + 0 + 1) / 4, (0 + 0 + 1 + 1) / 4⟩ :=
  ⟨(C7_lookup demoGrid 1 0 5 (by norm_num [demoGrid]) (by norm_num [demoGrid])
      0 0 0 0 (Color.mk 1 0 0) (Color.mk 0 1 0) (Color.mk 0 0 1)
      (Color.mk 1 1 1)).1,
   (C7_lookup demoGrid 1 0 5 (by norm_num [demoGrid]) (by norm_num [demoGrid])
      0 0 0 0 (Color.mk 1 0 0) (Color.mk 0 1 0) (Color.mk 0 0 1)
      (Color.mk 1 1 1)).2 demoGrid rfl rfl rfl 5⟩

theorem getD_concat_length {α : Type} (l : List α) (a : α) (d : α) :
    (l ++ [a]).getD l.length d = a := by
  induction l with
  | nil => rfl
  | cons x xs ih => simp [ih]

theorem applyMuts_img (ptr : ℕ) :
    ∀ (muts : List (ℚ × Color)) (st : DeepImageHeap),
      (applyMuts ptr st muts).img = st.img := by
  intro muts
  induction muts with
  | nil => intro st; rfl
  | cons m ms ih =>
    intro st
    rw [applyMuts, ih]
    rfl

/-- C9: pixelFunction returns a fresh copy of the stored pixel curve; its
cell initially holds exactly the stored samples, and after any sequence of
addSample mutations through the returned pointer the grid itself — hence
every later lookup (DeepImage::lerp) and every later pixelFunction copy — is
unchanged. -/
theorem C9_pixelFunction_returns_copy (st : DeepImageHeap) (x y : ℕ)
    (hx : x < st.img.width) (hy : y < st.img.height)
    (muts : List (ℚ × Color)) :
    ((pixelFunction st x y).1.heap.getD (pixelFunction st x y).2 []
      = st.img.pixel x y)
    ∧ (applyMuts (pixelFunction st x y).2 (pixelFunction st x y).1 muts).img
      = st.img
    ∧ (∀ rsX rsY z : ℚ,
        (applyMuts (pixelFunction st x y).2 (pixelFunction st x y).1
          muts).img.lerp rsX rsY z = st.img.lerp rsX rsY z)
    ∧ (∀ a b : ℕ,
        (applyMuts (pixelFunction st x y).2 (pixelFunction st x y).1
          muts).img.pixel a b = st.img.pixel a b) := by
  have himg :
      (applyMuts (pixelFunction st x y).2 (pixelFunction st x y).1 muts).img
        = st.img := by
    rw [applyMuts_img]
    rfl
  refine ⟨?_, himg, fun rsX rsY z => by rw [himg], fun a b => by rw [himg]⟩
  rw [pixelFunction]
  exact getD_concat_length st.heap (st.img.pixel x y) []

/-- Witness for C9: the demo grid with an empty heap, pixel (0, 1), one
mutation. -/
theorem C9_pixelFunction_witness :
    ((pixelFunction ⟨demoGrid, []⟩ 0 1).1.heap.getD
        (pixelFunction ⟨demoGrid, []⟩ 0 1).2 []
      = DeepImage.pixel demoGrid 0 1)
    ∧ (applyMuts (pixelFunction ⟨demoGrid, []⟩ 0 1).2
        (pixelFunction ⟨demoGrid, []⟩ 0 1).1 [((7:ℚ), Color.mk 5 5 5)]).img
      = demoGrid :=
  ⟨(C9_pixelFunction_returns_copy ⟨demoGrid, []⟩ 0 1 (by norm_num [demoGrid])
      (by norm_num [demoGrid]) [((7:ℚ), Color.mk 5 5 5)]).1,
   (C9_pixelFunction_returns_copy ⟨demoGrid, []⟩ 0 1 (by norm_num [demoGrid])
      (by norm_num [demoGrid]) [((7:ℚ), Color.mk 5 5 5)]).2.1⟩

theorem dot_rayAt (n : Vec3) (ray : Ray) (t : ℚ) :
    dot n (rayAt ray t) = dot n ray.pos + t * dot n ray.dir := by
  simp only [dot, rayAt]
  ring

theorem inClip_narrowPlane (ray : Ray) (pl : Plane)
    (acc : Option ℚ × Option ℚ) (t : ℚ)
    (hdd : dot pl.normal ray.dir ≠ 0) :
    inClip (narrowPlane ray acc pl) t ↔ (inClip acc t ∧ satPlane ray pl t) := by
  obtain ⟨aq, bq⟩ := acc
  have hsat : satPlane ray pl t ↔
      dot pl.normal ray.pos + t * dot pl.normal ray.dir ≤ pl.distance := by
    rw [satPlane, dot_rayAt]
  rcases lt_trichotomy (dot pl.normal ray.dir) 0 with hneg | hzero | hpos
  · have hcross :
        (pl.distance - dot pl.normal ray.pos) / dot pl.normal ray.dir ≤ t
          ↔ satPlane ray pl t := by
      rw [hsat, div_le_iff_of_neg hneg]
      constructor <;> intro h <;> nlinarith [h]
    rw [narrowPlane]
    simp only [if_pos hneg]
    rcases aq with _ | a
    · simp only [inClip, Option.some.injEq, forall_eq']
      rw [hcross]
      tauto
    · simp only [inClip, Option.some.injEq, forall_eq', max_le_iff]
      rw [hcross]
      tauto
  · exact absurd hzero hdd
  · have hcross :
        t ≤ (pl.distance - dot pl.normal ray.pos) / dot pl.normal ray.dir
          ↔ satPlane ray pl t := by
      rw [hsat, le_div_iff hpos]
      constructor <;> intro h <;> nlinarith [h]
    rw [narrowPlane]
    rw [if_neg (not_lt.mpr (le_of_lt hpos)), if_pos hpos]
    rcases bq with _ | b
    · simp only [inClip, Option.some.injEq, forall_eq']
      rw [hcross]
      tauto
    · simp only [inClip, Option.some.injEq, forall_eq', le_min_iff]
      rw [hcross]
      tauto

theorem inClip_clipInterval (ray : Ray) :
    ∀ (planes : List Plane) (acc : Option ℚ × Option ℚ) (t : ℚ),
      (∀ pl ∈ planes, dot pl.normal ray.dir ≠ 0) →
      (inClip (planes.foldl (narrowPlane ray) acc) t
        ↔ inClip acc t ∧ ∀ pl ∈ planes, satPlane ray pl t) := by
  intro planes
  induction planes with
  | nil =>
    intro acc t _
    constructor
    · intro h
      exact ⟨h, by intro pl hpl; simp at hpl⟩
    · intro h
      exact h.1
  | cons pl ps ih =>
    intro acc t hall
    rw [List.foldl_cons,
      ih (narrowPlane ray acc pl) t (fun q hq => hall q (by simp [hq])),
      inClip_narrowPlane ray pl acc t (hall pl (by simp))]
    constructor
    · rintro ⟨⟨h1, h2⟩, h3⟩
      refine ⟨h1, ?_⟩
      intro q hq
      rcases List.mem_cons.mp hq with hq | hq
      · rw [hq]; exact h2
      · exact h3 q hq
    · rintro ⟨h1, h2⟩
      exact ⟨⟨h1, h2 pl (by simp)⟩, fun q hq => h2 q (by simp [hq])⟩

theorem exists_inClip_iff (c : Option ℚ × Option ℚ) :
    (∃ t : ℚ, inClip c t) ↔ emptyClip c = false := by
  obtain ⟨aq, bq⟩ := c
  rcases aq with _ | a <;> rcases bq with _ | b
  · constructor
    · intro _
      rfl
    · intro _
      exact ⟨0, (by intro a h; simp at h), (by intro b h; simp at h)⟩
  · constructor
    · intro _
      rfl
    · intro _
      refine ⟨b, (by intro a h; simp at h), ?_⟩
      intro b' h
      injection h with h
      rw [h]
  · constructor
    · intro _
      rfl
    · intro _
      refine ⟨a, ?_, (by intro b h; simp at h)⟩
      intro a' h
      injection h with h
      rw [h]
  · constructor
    · rintro ⟨t, h1, h2⟩
      have ha := h1 a rfl
      have hb := h2 b rfl
      show decide (b < a) = false
      exact decide_eq_false (not_lt.mpr (le_trans ha hb))
    · intro h
      have hab : ¬ (b < a) := by
        intro hba
        have : emptyClip (some a, some b) = true := by
          show decide (b < a) = true
          simp [hba]
        rw [this] at h
        cases h
      refine ⟨a, ?_, ?_⟩
      · intro a' ha'
        injection ha' with hh
        rw [hh]
      · intro b' hb'
        injection hb' with hh
        rw [← hh]
        exact not_lt.mp hab

/-- C8: the FrustumMapping intersect operation returns zero intervals exactly
when the running interval after narrowing by all six planes has tMin > tMax —
equivalently, for a ray not parallel to any plane, exactly when no ray
parameter satisfies all six half-space constraints simultaneously — and
otherwise returns exactly the one interval [tMin, tMax]; the result never
holds more than one interval. -/
theorem C8_frustum_intersect (f : Frustum) (ray : Ray)
    (hnp : ∀ pl ∈ f.planes, dot pl.normal ray.dir ≠ 0) :
    (frustumIntersect f ray = []
      ↔ emptyClip (clipInterval ray f.planes) = true)
    ∧ (emptyClip (clipInterval ray f.planes) = false →
        frustumIntersect f ray = [clipInterval ray f.planes])
    ∧ (frustumIntersect f ray).length ≤ 1
    ∧ (frustumIntersect f ray = []
      ↔ ¬ ∃ t : ℚ, ∀ pl ∈ f.planes, satPlane ray pl t) := by
  have hsem : (∃ t : ℚ, ∀ pl ∈ f.planes, satPlane ray pl t)
      ↔ emptyClip (clipInterval ray f.planes) = false := by
    rw [← exists_inClip_iff]
    constructor
    · rintro ⟨t, ht⟩
      refine ⟨t, ?_⟩
      rw [clipInterval, inClip_clipInterval ray f.planes (none, none) t hnp]
      exact ⟨⟨(by intro a h; simp at h), (by intro b h; simp at h)⟩, ht⟩
    · rintro ⟨t, ht⟩
      rw [clipInterval, inClip_clipInterval ray f.planes (none, none) t hnp]
        at ht
      exact ⟨t, ht.2⟩
  by_cases hemp : emptyClip (clipInterval ray f.planes) = true
  · refine ⟨by simp [frustumIntersect, hemp], ?_, ?_, ?_⟩
    · intro hcon
      rw [hemp] at hcon
      cases hcon
    · simp [frustumIntersect, hemp]
    · rw [hsem]
      simp [frustumIntersect, hemp]
  · have hfalse : emptyClip (clipInterval ray f.planes) = false :=
      Bool.not_eq_true _ |>.mp hemp
    refine ⟨?_, ?_, ?_, ?_⟩
    · simp [frustumIntersect, hfalse]
    · intro _
      simp [frustumIntersect, hfalse]
    · simp [frustumIntersect, hfalse]
    · rw [hsem]
      simp [frustumIntersect, hfalse]

/-- Witness for C8 at the demo frustum and demo ray. -/
theorem C8_frustum_intersect_witness :
    (frustumIntersect demoFrustum demoRay = []
      ↔ emptyClip (clipInterval demoRay demoFrustum.planes) = true)
    ∧ (frustumIntersect demoFrustum demoRay).length ≤ 1 :=
  ⟨(C8_frustum_intersect demoFrustum demoRay
      (by simp [demoFrustum, demoRay, Frustum.planes, dot])).1,
   (C8_frustum_intersect demoFrustum demoRay
      (by simp [demoFrustum, demoRay, Frustum.planes, dot])).2.2.1⟩
